import Mathlib

/-!
Shallow embedding of the `lokhor/cleaning-scheduler` repository
(`src/cleaning_script.py` and `src/reset_csv.py`) and proofs about it.

Conventions of the embedding:
* Calendar dates are integers (day numbers); `today - last` is the
  `(today - last_assigned).days` difference of the Python code.
* A CSV cell that pandas reads as `NaN` is modelled as `none`; a present
  cell is `some s` with its string contents.
* `pd.to_datetime` is abstracted by a parameter `parse : String → Option Int`
  (`none` models the `except:` branch of `get_date_from_str`), and
  `date.isoformat()` by a parameter `fmt : Int → String`.
* Python `str.lower`, `str.strip` and `str.split(',')` are modelled
  character-list-wise by `toLowerStr`, `trimStr` and `pySplit`.
* The iteration order of a Python `set` is not fixed by the language
  (string hashing is randomized per interpreter process), so the
  `list(eligible)` conversion in `assign_logic` is modelled by an explicit
  enumeration parameter `enum : List String → List String`.
-/

namespace CleaningScheduler

/-! ## Python string primitives -/

/-- ASCII whitespace recognised by Python's `str.strip()`. -/
def isSpaceChar (c : Char) : Bool := c = ' ' || c = '\t' || c = '\n' || c = '\r'

/-- Python `str.lower()` (character-wise). -/
def toLowerStr (s : String) : String := ⟨s.data.map Char.toLower⟩

/-- Python `str.strip()`: remove leading and trailing whitespace. -/
def trimStr (s : String) : String :=
  ⟨((s.data.dropWhile isSpaceChar).reverse.dropWhile isSpaceChar).reverse⟩

/-- Helper for `pySplit`. -/
def splitAux (sep : Char) : List Char → List Char → List String
  | [], acc => [⟨acc.reverse⟩]
  | c :: cs, acc =>
    if c = sep then ⟨acc.reverse⟩ :: splitAux sep cs []
    else splitAux sep cs (c :: acc)

/-- Python `s.split(sep)` for a one-character separator. -/
def pySplit (s : String) (sep : Char) : List String := splitAux sep s.data []

/-! ## Data model: one catalog row -/

/-- One data row of `cleaning schedule.csv` as read by
`pd.read_csv(CSV_FILE, skiprows=2, dtype={'Currently Assigned To': str, 'Last Assigned Date': str})`.
`none` in an `Option` field models a `NaN` cell. -/
structure Row where
  area : String
  activity : String
  frequency : String
  effortMinutes : Int
  whoCanDo : Option String
  lastAssignedDate : Option String
  currentlyAssignedTo : Option String
deriving DecidableEq

/-- One element of `tasks_to_push` built by `main`. -/
structure PushItem where
  person : String
  area : String
  task : String
  originalIndex : Nat
deriving DecidableEq

/-! ## `get_date_from_str` and `is_due` (src/cleaning_script.py lines 17-42) -/

/-- `get_date_from_str(date_str)`: `None` for a missing cell (`pd.isna`),
the empty string or the string `'nan'` (case-insensitively); otherwise the
result of `pd.to_datetime` (the abstract `parse`), whose failure
(`except: return None`) is `parse s = none`. -/
def get_date_from_str (parse : String → Option Int) (date_str : Option String) : Option Int :=
  match date_str with
  | none => none
  | some s => if s = "" ∨ toLowerStr s = "nan" then none else parse s

/-- `is_due(row, today)` returning the `(bool, reason)` pair of the source. -/
def is_due (parse : String → Option Int) (row : Row) (today : Int) : Bool × String :=
  let last_assigned := get_date_from_str parse row.lastAssignedDate
  let freq := trimStr (toLowerStr row.frequency)
  if freq = "daily" then (true, "Daily task")
  else
    match last_assigned with
    | none => (true, "Never assigned before")
    | some last =>
      let days_since : Int := today - last
      if freq = "weekly" ∧ 7 ≤ days_since then
        (true, "Weekly (Last: " ++ toString days_since ++ " days ago)")
      else if freq = "fortnightly" ∧ 14 ≤ days_since then
        (true, "Fortnightly (Last: " ++ toString days_since ++ " days ago)")
      else if freq = "monthly" ∧ 28 ≤ days_since then
        (true, "Monthly (Last: " ++ toString days_since ++ " days ago)")
      else (false, "Not due yet (" ++ freq ++ ", Last: " ++ toString days_since ++ " days ago)")

/-! ## The per-row push loop of `main` (src/cleaning_script.py lines 100-135) -/

/-- The body of the `for idx, row in df.iterrows():` loop of `main`:
skip a row without an assigned person; otherwise push iff the frequency is
daily (`str(row['frequency']).lower() == 'daily'`, no strip here) or it is
Monday and `is_due` said so; a pushed row gets
`Last Assigned Date = today.isoformat()`. -/
def processRow (parse : String → Option Int) (fmt : Int → String) (today : Int)
    (is_monday : Bool) (idx : Nat) (row : Row) : Row × Option PushItem :=
  match row.currentlyAssignedTo with
  | none => (row, none)
  | some person =>
    if person = "nan" then (row, none)
    else
      let should_run := (is_due parse row today).1
      let is_go : Bool :=
        if toLowerStr row.frequency = "daily" then true
        else is_monday && should_run
      if is_go then
        ({ row with lastAssignedDate := some (fmt today) },
          some { person := person, area := row.area, task := row.activity, originalIndex := idx })
      else (row, none)

/-- `processRow` folded over the rows with their `iterrows` index. -/
def processRowsAux (parse : String → Option Int) (fmt : Int → String) (today : Int)
    (is_monday : Bool) : Nat → List Row → List Row × List PushItem
  | _, [] => ([], [])
  | idx, row :: rest =>
    let step := processRow parse fmt today is_monday idx row
    let tail := processRowsAux parse fmt today is_monday (idx + 1) rest
    (step.1 :: tail.1, step.2.toList ++ tail.2)

/-- The whole due-date loop of `main`: the updated dataframe rows plus
`tasks_to_push` in row order. -/
def processRows (parse : String → Option Int) (fmt : Int → String) (today : Int)
    (is_monday : Bool) (rows : List Row) : List Row × List PushItem :=
  processRowsAux parse fmt today is_monday 0 rows

/-- Claim-side predicate: the row has an assigned person
(the Python loop skips rows with `pd.isna(person) or person == 'nan'`). -/
def hasAssignedPerson (row : Row) : Prop :=
  ∃ p, row.currentlyAssignedTo = some p ∧ p ≠ "nan"

/-- Claim-side predicate: the row is selected for today's push —
frequency is daily, or it is the weekly reset day and the row is due. -/
def selectedForPush (parse : String → Option Int) (today : Int) (is_monday : Bool)
    (row : Row) : Prop :=
  trimStr (toLowerStr row.frequency) = "daily"
    ∨ (is_monday = true ∧ (is_due parse row today).1 = true)

/-! ## `assign_logic` (src/cleaning_script.py lines 44-77) -/

/-- Keep the first occurrence of every element (Python `set` accumulation
viewed as "which elements", order handled separately). -/
def uniqueAux : List String → List String → List String
  | [], _ => []
  | a :: l, seen => if a ∈ seen then uniqueAux l seen else a :: uniqueAux l (a :: seen)

/-- First-occurrence deduplication; `df['Area'].unique()` preserves this order. -/
def uniqueFirst (l : List String) : List String := uniqueAux l []

/-- Lexicographic comparison of strings by code points (Python `<=`). -/
def charListLe : List Char → List Char → Bool
  | [], _ => true
  | _ :: _, [] => false
  | c :: cs, d :: ds =>
    if c.val < d.val then true
    else if d.val < c.val then false
    else charListLe cs ds

/-- Python string `<=`. -/
def strLe (a b : String) : Bool := charListLe a.data b.data

/-- Insertion step of an ascending string sort (Python `sorted`). -/
def insertStrAsc (x : String) : List String → List String
  | [] => [x]
  | y :: l => if strLe x y then x :: y :: l else y :: insertStrAsc x l

/-- Python `sorted(...)` on strings. -/
def sortStr (l : List String) : List String := l.foldr insertStrAsc []

/-- `str(row['Who can do this'])`: pandas renders a `NaN` cell as `'nan'`. -/
def whoStr (row : Row) : String :=
  match row.whoCanDo with
  | some s => s
  | none => "nan"

/-- `[p.strip() for p in str(row['Who can do this']).split(',')]`. -/
def row_people (row : Row) : List String := (pySplit (whoStr row) ',').map trimStr

/-- `people = sorted(all_people)`: every comma-separated, stripped name from the
non-`NaN` `Who can do this` cells, deduplicated and sorted. -/
def all_people (rows : List Row) : List String :=
  sortStr (uniqueFirst ((rows.filterMap (fun r => r.whoCanDo)).flatMap
    (fun s => (pySplit s ',').map trimStr)))

/-- `df['Area'].unique()`: areas in first-occurrence order. -/
def unique_areas (rows : List Row) : List String := uniqueFirst (rows.map (fun r => r.area))

/-- `df[df['Area'] == area]`. -/
def area_rows (rows : List Row) (a : String) : List Row :=
  rows.filter (fun r => decide (r.area = a))

/-- The `weight` accumulated for one area:
`(mins * 7) if str(row['frequency']).lower() == 'daily' else mins`. -/
def area_weight (rows : List Row) (a : String) : Int :=
  ((area_rows rows a).map (fun r =>
    if toLowerStr r.frequency = "daily" then r.effortMinutes * 7 else r.effortMinutes)).foldl
    (· + ·) 0

/-- The `eligible` set of one area: start from `set(people)` and intersect with
each row's people (as a canonically ordered list; the arbitrary Python `set`
iteration order is applied by `enum` in `area_to_eligible`). -/
def area_eligible (rows : List Row) (people : List String) (a : String) : List String :=
  people.filter (fun p => decide (∀ r ∈ area_rows rows a, p ∈ row_people r))

/-- `area_to_eligible[area] = list(eligible) if eligible else people`;
`enum` models the unspecified iteration order of `list(<set>)`. -/
def area_to_eligible (enum : List String → List String) (rows : List Row)
    (people : List String) (a : String) : List String :=
  let e := area_eligible rows people a
  if e = [] then people else enum e

/-- Insertion step of the stable descending-by-weight sort
(`sorted(areas, key=lambda x: area_weights[x], reverse=True)`): a later
element goes after all earlier elements of greater-or-equal weight. -/
def insertByWeightDesc (w : String → Int) (a : String) : List String → List String
  | [] => [a]
  | b :: l => if w b < w a then a :: b :: l else b :: insertByWeightDesc w a l

/-- Stable descending sort by weight (Python `sorted` with `reverse=True`). -/
def sortAreasDesc (w : String → Int) (l : List String) : List String :=
  l.foldl (fun acc a => insertByWeightDesc w a acc) []

/-- Python `min(candidates, key=lambda p: person_load[p])`: the first element
with minimal key; `none` models the `ValueError` on an empty iterable or the
`KeyError` of a missing `person_load` entry. -/
def min_by_load (k : String → Option Int) : List String → Option String
  | [] => none
  | [p] =>
    match k p with
    | some _ => some p
    | none => none
  | p :: rest =>
    match k p, min_by_load k rest with
    | some kp, some m =>
      match k m with
      | some km => if kp ≤ km then some p else some m
      | none => none
    | _, _ => none

/-- The assignment loop of `assign_logic`: walk the weight-sorted areas,
give each to the minimally loaded eligible person and charge that person
the area's weight.  `none` models an uncaught Python exception. -/
def assign_loop (people : List String) (w : String → Int)
    (elig : String → List String) : List String → (String → Int) → Option (List (String × String))
  | [], _ => some []
  | a :: rest, load =>
    match min_by_load (fun p => if p ∈ people then some (load p) else none) (elig a) with
    | none => none
    | some best =>
      match assign_loop people w elig rest
          (fun p => if p = best then load p + w a else load p) with
      | none => none
      | some m => some ((a, best) :: m)

/-- The area→person mapping computed by `assign_logic` (`today` is a parameter
of the source function but is unused by it). -/
def assignAreas (enum : List String → List String) (rows : List Row) (today : Int) :
    Option (List (String × String)) :=
  let people := all_people rows
  assign_loop people (area_weight rows) (area_to_eligible enum rows people)
    (sortAreasDesc (area_weight rows) (unique_areas rows)) (fun _ => 0)

/-- Association lookup in the computed mapping. -/
def lookupAssign : List (String × String) → String → Option String
  | [], _ => none
  | (b, p) :: rest, a => if b = a then some p else lookupAssign rest a

/-- `assign_logic(df, today)`: apply the computed mapping to
`df.loc[df['Area'] == area, 'Currently Assigned To']` for every area. -/
def assign_logic (enum : List String → List String) (rows : List Row) (today : Int) :
    Option (List Row) :=
  (assignAreas enum rows today).map (fun m =>
    rows.map (fun r =>
      match lookupAssign m r.area with
      | some p => { r with currentlyAssignedTo := some p }
      | none => r))

/-! ## Remote sync (src/cleaning_script.py lines 158-191 plus the truncated tail) -/

/-- One item of a remote Google Keep checklist
(`note.items` contains checked and unchecked items alike). -/
structure RemoteItem where
  id : Nat
  text : String
  checked : Bool
deriving DecidableEq

/-- One operation issued against the remote store. -/
inductive KeepOp where
  | createList (title : String)
  | deleteItem (title : String) (itemId : Nat)
  | addItem (title : String) (text : String) (parentText : Option String)
deriving DecidableEq

/-- Is the operation a deletion? -/
def isDeleteOp : KeepOp → Bool
  | .deleteItem _ _ => true
  | _ => false

/-- Is the operation an item addition? -/
def isAddOp : KeepOp → Bool
  | .addItem _ _ _ => true
  | _ => false

/-- `for item in list(note.items): item.delete()` — one delete per existing
item, checked ones included. -/
def clear_items (title : String) (items : List RemoteItem) : List KeepOp :=
  items.map (fun it => KeepOp.deleteItem title it.id)

/-- Modelled from the spec: the source file breaks off right after the
clearing loop (at `for area`, line 191), so the add phase is modelled from
§4.4 of the spec — one header item per distinct area of the person's push
items (first-occurrence order), then each push item as a child parented to
its area's header. -/
def addPhaseOps (title : String) (tasks : List PushItem) : List KeepOp :=
  ((uniqueFirst (tasks.map (fun t => t.area))).map (fun a =>
    KeepOp.addItem title a none ::
      ((tasks.filter (fun t => decide (t.area = a))).map
        (fun t => KeepOp.addItem title t.task (some a))))).flatten

/-- Reconciling one person's note: clear every existing item, then add
today's items. -/
def reconcilePerson (title : String) (items : List RemoteItem) (tasks : List PushItem) :
    List KeepOp :=
  clear_items title items ++ addPhaseOps title tasks

/-- Interpreter for `KeepOp` sequences on a remote list's active view;
`fresh` is the next unused item identity. -/
def applyOps : List KeepOp → List RemoteItem → Nat → List RemoteItem
  | [], st, _ => st
  | op :: rest, st, fresh =>
    match op with
    | .deleteItem _ i => applyOps rest (st.filter (fun it => it.id != i)) fresh
    | .addItem _ text _ => applyOps rest (st ++ [⟨fresh, text, false⟩]) (fresh + 1)
    | .createList _ => applyOps rest st fresh

/-- Insertion step of the stable ascending sort of push items by person:
a later element goes after all earlier elements of smaller-or-equal key. -/
def insertPushByPerson (t : PushItem) : List PushItem → List PushItem
  | [] => [t]
  | u :: l => if strLe u.person t.person then u :: insertPushByPerson t l else t :: u :: l

/-- `tasks_to_push.sort(key=lambda x: x['person'])` (Python sort is stable). -/
def sortPushByPerson (l : List PushItem) : List PushItem :=
  l.foldl (fun acc t => insertPushByPerson t acc) []

/-- Insertion step of the stable ascending sort of push items by original
row index (`sorted(list(tasks), key=lambda x: x['original_index'])`). -/
def insertPushByIdx (t : PushItem) : List PushItem → List PushItem
  | [] => [t]
  | u :: l => if u.originalIndex ≤ t.originalIndex then u :: insertPushByIdx t l else t :: u :: l

/-- `sorted(list(tasks), key=lambda x: x['original_index'])`. -/
def sortPushByIdx (l : List PushItem) : List PushItem :=
  l.foldl (fun acc t => insertPushByIdx t acc) []

/-- `itertools.groupby` on the person-sorted push list: maximal runs of
items with the same person. -/
def groupByPerson : List PushItem → List (String × List PushItem)
  | [] => []
  | t :: rest =>
    match groupByPerson rest with
    | [] => [(t.person, [t])]
    | (p, g) :: gs =>
      if p = t.person then (p, t :: g) :: gs else (t.person, [t]) :: (p, g) :: gs

/-- The per-person body of the sync loop: look the note title up in the
environment (skip the person when absent), find the note (creating it empty
when missing), then reconcile it. -/
def syncPerson (noteTitle : String → Option String)
    (remoteItems : String → Option (List RemoteItem)) (person : String)
    (tasks : List PushItem) : List KeepOp :=
  match noteTitle person with
  | none => []
  | some title =>
    match remoteItems title with
    | none => KeepOp.createList title :: reconcilePerson title [] (sortPushByIdx tasks)
    | some items => reconcilePerson title items (sortPushByIdx tasks)

/-- The whole remote-sync phase of `main`. -/
def syncAll (noteTitle : String → Option String)
    (remoteItems : String → Option (List RemoteItem)) (pushes : List PushItem) :
    List KeepOp :=
  ((groupByPerson (sortPushByPerson pushes)).map
    (fun pg => syncPerson noteTitle remoteItems pg.1 pg.2)).flatten

/-! ## The whole daily run (`main`, src/cleaning_script.py lines 79-191) -/

/-- The environment one invocation of `main` runs in.  `csv = none` models a
failing catalog read (the `except` at line 93); `enum`, `parse`, `fmt` are as
above; `authOk = false` models `keep.authenticate` raising. -/
structure MainInput where
  csv : Option (String × String × List Row)
  today : Int
  is_monday : Bool
  authOk : Bool
  enum : List String → List String
  parse : String → Option Int
  fmt : Int → String
  noteTitle : String → Option String
  remoteItems : String → Option (List RemoteItem)

/-- The observable outcome of one invocation: the process exit code, the
catalog contents written back to disk (`none` if the run never saved), and
the operations issued against the remote store. -/
structure MainResult where
  exitCode : Nat
  savedCsv : Option (String × String × List Row)
  remoteOps : List KeepOp
deriving DecidableEq

/-- `main()`: read the catalog (a caught failure prints and `return`s, so the
process still exits 0); on Monday run `assign_logic` (whose uncaught
exception would kill the process with a non-zero code before anything is
saved); run the due-date loop; save the CSV; authenticate (a caught failure
prints and `return`s — exit code 0 — after the save, before any remote list
operation); finally sync. -/
def main_run (inp : MainInput) : MainResult :=
  match inp.csv with
  | none => { exitCode := 0, savedCsv := none, remoteOps := [] }
  | some (h1, h2, rows) =>
    match (if inp.is_monday then assign_logic inp.enum rows inp.today else some rows) with
    | none => { exitCode := 1, savedCsv := none, remoteOps := [] }
    | some rows1 =>
      let pr := processRows inp.parse inp.fmt inp.today inp.is_monday rows1
      let saved := some (h1, h2, pr.1)
      if inp.authOk = false then { exitCode := 0, savedCsv := saved, remoteOps := [] }
      else
        { exitCode := 0, savedCsv := saved,
          remoteOps := syncAll inp.noteTitle inp.remoteItems pr.2 }

/-! ## `reset_csv` (src/reset_csv.py lines 6-32) -/

/-- `reset_csv()` on an already-read catalog: re-emit the two preserved
header lines and set every row's `Last Assigned Date` cell to `''`. -/
def reset_csv (header1 header2 : String) (rows : List Row) : List String × List Row :=
  ([header1, header2], rows.map (fun r => { r with lastAssignedDate := some "" }))

/-! ## Concrete fixtures used by witnesses -/

/-- A daily task assigned to Alice with no recorded date. -/
def rowDailyAlice : Row :=
  { area := "K", activity := "Wipe", frequency := "Daily", effortMinutes := 10,
    whoCanDo := some "Alice", lastAssignedDate := none,
    currentlyAssignedTo := some "Alice" }

/-- An environment whose catalog read fails. -/
def csvFailInput : MainInput :=
  { csv := none, today := 0, is_monday := false, authOk := true, enum := id,
    parse := fun _ => none, fmt := fun _ => "", noteTitle := fun _ => none,
    remoteItems := fun _ => none }

/-- An environment that reads one daily task and then fails to authenticate. -/
def authFailInput : MainInput :=
  { csv := some ("h1", "h2", [rowDailyAlice]),
    today := 5, is_monday := false, authOk := false, enum := id,
    parse := fun _ => none, fmt := fun d => toString d,
    noteTitle := fun _ => none, remoteItems := fun _ => none }

/-- The same environment with authentication succeeding. -/
def authOkInput : MainInput := { authFailInput with authOk := true }

/-! ## Theorems about `is_due` (claims C2, C3, C10) -/

/-- Unfolding of `is_due` when the date resolved and the frequency is not daily. -/
theorem is_due_fst_of_some (parse : String → Option Int) (row : Row) (today d : Int)
    (hd : get_date_from_str parse row.lastAssignedDate = some d)
    (hnd : trimStr (toLowerStr row.frequency) ≠ "daily") :
    (is_due parse row today).1 =
      (decide (trimStr (toLowerStr row.frequency) = "weekly" ∧ 7 ≤ today - d)
        || decide (trimStr (toLowerStr row.frequency) = "fortnightly" ∧ 14 ≤ today - d)
        || decide (trimStr (toLowerStr row.frequency) = "monthly" ∧ 28 ≤ today - d)) := by
  unfold is_due
  rw [hd, if_neg hnd]
  dsimp only
  split_ifs with h1 h2 h3 <;> simp_all

/-- C2: `is_due` returns true whenever the (normalised) frequency is daily,
regardless of the `Last Assigned Date` cell, and also whenever the
`Last Assigned Date` cell is absent, for any frequency. -/
theorem is_due_daily_or_unassigned (parse : String → Option Int) (row : Row) (today : Int) :
    (trimStr (toLowerStr row.frequency) = "daily" → (is_due parse row today).1 = true)
    ∧ (row.lastAssignedDate = none → (is_due parse row today).1 = true) := by
  constructor
  · intro h
    unfold is_due
    rw [if_pos h]
  · intro h
    unfold is_due get_date_from_str
    rw [h]
    dsimp only
    split_ifs <;> rfl

/-- Witness for C2: a daily task whose recorded date lies in the future is
due, and a weekly task with an absent date is due. -/
theorem is_due_daily_or_unassigned_witness :
    (is_due (fun _ => some 99)
      { area := "K", activity := "Wipe", frequency := " Daily ", effortMinutes := 10,
        whoCanDo := some "Alice", lastAssignedDate := some "2099-01-01",
        currentlyAssignedTo := some "Alice" } 0).1 = true
    ∧ (is_due (fun _ => some 99)
      { area := "K", activity := "Wipe", frequency := "Weekly", effortMinutes := 10,
        whoCanDo := some "Alice", lastAssignedDate := none,
        currentlyAssignedTo := some "Alice" } 0).1 = true := by
  exact ⟨(is_due_daily_or_unassigned _ _ _).1 (by decide),
    (is_due_daily_or_unassigned _ _ _).2 rfl⟩

/-- C3: with a resolved `Last Assigned Date` and a non-daily frequency,
`is_due` is decided by the fixed thresholds 7/14/28 on
`days_since = today - last`; a negative `days_since` is never due, and an
unknown frequency is never due. -/
theorem is_due_thresholds (parse : String → Option Int) (row : Row) (today d : Int)
    (hd : get_date_from_str parse row.lastAssignedDate = some d)
    (hnd : trimStr (toLowerStr row.frequency) ≠ "daily") :
    (trimStr (toLowerStr row.frequency) = "weekly" →
        ((is_due parse row today).1 = true ↔ 7 ≤ today - d))
    ∧ (trimStr (toLowerStr row.frequency) = "fortnightly" →
        ((is_due parse row today).1 = true ↔ 14 ≤ today - d))
    ∧ (trimStr (toLowerStr row.frequency) = "monthly" →
        ((is_due parse row today).1 = true ↔ 28 ≤ today - d))
    ∧ (today - d < 0 → (is_due parse row today).1 = false)
    ∧ (trimStr (toLowerStr row.frequency) ≠ "weekly" →
        trimStr (toLowerStr row.frequency) ≠ "fortnightly" →
        trimStr (toLowerStr row.frequency) ≠ "monthly" →
        (is_due parse row today).1 = false) := by
  rw [is_due_fst_of_some parse row today d hd hnd]
  refine ⟨fun h => ?_, fun h => ?_, fun h => ?_, fun h => ?_, fun h1 h2 h3 => ?_⟩ <;>
    simp_all <;> omega

/-- Witness for C3: a weekly task last assigned 7 days ago is due. -/
theorem is_due_thresholds_witness :
    ((is_due (fun s => if s = "3" then some 3 else none)
      { area := "B", activity := "Scrub", frequency := "Weekly", effortMinutes := 30,
        whoCanDo := some "Alice", lastAssignedDate := some "3",
        currentlyAssignedTo := some "Alice" } 10).1 = true ↔ (7 : Int) ≤ 10 - 3) := by
  exact (is_due_thresholds _ _ 10 3 (by decide) (by decide)).1 (by decide)

/-- C10: a present, non-empty `Last Assigned Date` string that
`pd.to_datetime` cannot parse is silently treated as never assigned:
`get_date_from_str` yields `none` and `is_due` answers true for every
frequency. -/
theorem is_due_unparseable_date (parse : String → Option Int) (row : Row) (today : Int)
    (s : String) (hs : row.lastAssignedDate = some s) (hne : s ≠ "")
    (hp : parse s = none) :
    get_date_from_str parse row.lastAssignedDate = none
    ∧ (is_due parse row today).1 = true := by
  have hg : get_date_from_str parse row.lastAssignedDate = none := by
    unfold get_date_from_str
    rw [hs]
    dsimp only
    split_ifs with h
    · rfl
    · exact hp
  refine ⟨hg, ?_⟩
  unfold is_due
  rw [hg]
  dsimp only
  split_ifs <;> rfl

/-- Witness for C10: the unparseable cell `"yesterday"` makes an unknown
frequency (`"yearly"`) report due. -/
theorem is_due_unparseable_date_witness :
    get_date_from_str (fun _ => none)
        (some "yesterday") = none
    ∧ (is_due (fun _ => none)
      { area := "K", activity := "Wipe", frequency := "yearly", effortMinutes := 10,
        whoCanDo := some "Alice", lastAssignedDate := some "yesterday",
        currentlyAssignedTo := some "Alice" } 5).1 = true := by
  exact is_due_unparseable_date (fun _ => none)
    { area := "K", activity := "Wipe", frequency := "yearly", effortMinutes := 10,
      whoCanDo := some "Alice", lastAssignedDate := some "yesterday",
      currentlyAssignedTo := some "Alice" } 5 "yesterday" rfl (by decide) rfl

/-! ## Theorems about the daily push loop (claim C1) -/

/-- A row without an assigned person (or with the string `'nan'`) is skipped
unchanged and pushes nothing. -/
theorem processRow_skip (parse : String → Option Int) (fmt : Int → String) (today : Int)
    (m : Bool) (idx : Nat) (row : Row)
    (h : row.currentlyAssignedTo = none ∨ row.currentlyAssignedTo = some "nan") :
    processRow parse fmt today m idx row = (row, none) := by
  unfold processRow
  rcases h with h | h <;> rw [h] <;> dsimp only
  rw [if_pos rfl]

/-- A row with a real assigned person that is selected is pushed and dated. -/
theorem processRow_selected (parse : String → Option Int) (fmt : Int → String) (today : Int)
    (m : Bool) (idx : Nat) (row : Row) (p : String)
    (hperson : row.currentlyAssignedTo = some p) (hpn : p ≠ "nan")
    (hfr : trimStr (toLowerStr row.frequency) = toLowerStr row.frequency)
    (hsel : selectedForPush parse today m row) :
    processRow parse fmt today m idx row =
      ({ row with lastAssignedDate := some (fmt today) },
        some { person := p, area := row.area, task := row.activity, originalIndex := idx }) := by
  unfold processRow
  rw [hperson]
  dsimp only
  rw [if_neg hpn]
  rcases hsel with hdaily | ⟨hm, hdue⟩
  · rw [hfr] at hdaily
    rw [if_pos hdaily]
    rfl
  · by_cases hd : toLowerStr row.frequency = "daily"
    · rw [if_pos hd]
      rfl
    · rw [if_neg hd, hm, hdue]
      rfl

/-- A row with a real assigned person that is not selected is left unchanged
and pushes nothing. -/
theorem processRow_not_selected (parse : String → Option Int) (fmt : Int → String) (today : Int)
    (m : Bool) (idx : Nat) (row : Row) (p : String)
    (hperson : row.currentlyAssignedTo = some p) (hpn : p ≠ "nan")
    (hfr : trimStr (toLowerStr row.frequency) = toLowerStr row.frequency)
    (hsel : ¬ selectedForPush parse today m row) :
    processRow parse fmt today m idx row = (row, none) := by
  unfold processRow
  rw [hperson]
  dsimp only
  rw [if_neg hpn]
  have hd : ¬ toLowerStr row.frequency = "daily" := by
    intro h
    exact hsel (Or.inl (hfr.trans h))
  rw [if_neg hd]
  have hb : (m && (is_due parse row today).1) = false := by
    by_cases h : (m && (is_due parse row today).1) = true
    · rw [Bool.and_eq_true] at h
      exact absurd (Or.inr h) hsel
    · exact Bool.not_eq_true _ ▸ h
  rw [hb]
  rfl

/-- Pushing sets the item's `original_index` to the row's index. -/
theorem processRow_originalIndex (parse : String → Option Int) (fmt : Int → String)
    (today : Int) (m : Bool) (idx : Nat) (row : Row) (it : PushItem)
    (h : (processRow parse fmt today m idx row).2 = some it) : it.originalIndex = idx := by
  unfold processRow at h
  rcases hp : row.currentlyAssignedTo with _ | p <;> rw [hp] at h <;> dsimp only at h
  · exact absurd h (by simp)
  · split_ifs at h <;> dsimp only at h <;>
      first
        | exact Option.noConfusion h
        | (injection h with h
           rw [← h])

/-- The updated row at index `k` is `processRow` of the input row at `k`. -/
theorem processRowsAux_fst_get (parse : String → Option Int) (fmt : Int → String)
    (today : Int) (m : Bool) :
    ∀ (rest : List Row) (idx k : Nat),
      ((processRowsAux parse fmt today m idx rest).1).get? k
        = (rest.get? k).map (fun r => (processRow parse fmt today m (idx + k) r).1) := by
  intro rest
  induction rest with
  | nil => intro idx k; simp [processRowsAux]
  | cons row rest ih =>
    intro idx k
    cases k with
    | zero => simp [processRowsAux]
    | succ k =>
      have harith : idx + (k + 1) = (idx + 1) + k := by omega
      simp only [processRowsAux, List.get?_cons_succ, harith, ih (idx + 1) k]

/-- Membership in the push list produced by the loop. -/
theorem processRowsAux_push_mem (parse : String → Option Int) (fmt : Int → String)
    (today : Int) (m : Bool) (it : PushItem) :
    ∀ (rest : List Row) (idx : Nat),
      it ∈ (processRowsAux parse fmt today m idx rest).2 ↔
        ∃ k r, rest.get? k = some r
          ∧ (processRow parse fmt today m (idx + k) r).2 = some it := by
  intro rest
  induction rest with
  | nil =>
    intro idx
    simp [processRowsAux]
  | cons row rest ih =>
    intro idx
    unfold processRowsAux
    dsimp only
    rw [List.mem_append, ih (idx + 1)]
    constructor
    · rintro (h | ⟨k, r, hk, hpr⟩)
      · refine ⟨0, row, rfl, ?_⟩
        simpa using h
      · refine ⟨k + 1, r, by simpa using hk, ?_⟩
        rw [show idx + (k + 1) = idx + 1 + k by omega]
        exact hpr
    · rintro ⟨k, r, hk, hpr⟩
      cases k with
      | zero =>
        left
        rw [List.get?_cons_zero, Option.some_inj] at hk
        subst hk
        simp only [Nat.add_zero] at hpr
        simp [hpr]
      | succ k =>
        right
        refine ⟨k, r, by simpa using hk, ?_⟩
        rw [show idx + 1 + k = idx + (k + 1) by omega]
        exact hpr

/-- C1: for every catalog row with an assigned person the daily run selects
it for today's push iff its frequency is daily or it is the weekly reset
day and the row is due; exactly the selected rows get
`Last Assigned Date = today`, and every non-selected row is left unchanged. -/
theorem processRows_selection_spec (parse : String → Option Int) (fmt : Int → String)
    (today : Int) (is_monday : Bool) (rows : List Row)
    (hfreq : ∀ r ∈ rows, trimStr (toLowerStr r.frequency) = toLowerStr r.frequency)
    (i : Nat) (r : Row) (hr : rows.get? i = some r) :
    (hasAssignedPerson r →
      ((∃ it ∈ (processRows parse fmt today is_monday rows).2, it.originalIndex = i) ↔
        selectedForPush parse today is_monday r))
    ∧ (hasAssignedPerson r → selectedForPush parse today is_monday r →
        (processRows parse fmt today is_monday rows).1.get? i
          = some { r with lastAssignedDate := some (fmt today) })
    ∧ (¬ (hasAssignedPerson r ∧ selectedForPush parse today is_monday r) →
        (processRows parse fmt today is_monday rows).1.get? i = some r) := by
  have hfr : trimStr (toLowerStr r.frequency) = toLowerStr r.frequency :=
    hfreq r (List.get?_mem hr)
  have hg : ∀ k, ((processRows parse fmt today is_monday rows).1).get? k
      = (rows.get? k).map (fun r => (processRow parse fmt today is_monday k r).1) := by
    intro k
    have := processRowsAux_fst_get parse fmt today is_monday rows 0 k
    simpa [processRows] using this
  have hmem : ∀ it : PushItem,
      it ∈ (processRows parse fmt today is_monday rows).2 ↔
        ∃ k r', rows.get? k = some r'
          ∧ (processRow parse fmt today is_monday k r').2 = some it := by
    intro it
    have := processRowsAux_push_mem parse fmt today is_monday it rows 0
    simpa [processRows] using this
  refine ⟨?_, ?_, ?_⟩
  · rintro ⟨p, hp, hpn⟩
    constructor
    · rintro ⟨it, hit, hidx⟩
      rcases (hmem it).1 hit with ⟨k, r', hk, hpr⟩
      have hki : k = i := by
        rw [← hidx, processRow_originalIndex parse fmt today is_monday k r' it hpr]
      subst hki
      have hrr : r' = r := by
        rw [hk] at hr
        exact Option.some_inj.1 hr
      subst hrr
      by_contra hns
      rw [processRow_not_selected parse fmt today is_monday k r' p hp hpn
        (hfreq r' (List.get?_mem hk)) hns] at hpr
      exact absurd hpr (by simp)
    · intro hsel
      refine ⟨{ person := p, area := r.area, task := r.activity, originalIndex := i },
        (hmem _).2 ⟨i, r, hr, ?_⟩, rfl⟩
      rw [processRow_selected parse fmt today is_monday i r p hp hpn hfr hsel]
  · rintro ⟨p, hp, hpn⟩ hsel
    rw [hg i, hr, Option.map_some',
      processRow_selected parse fmt today is_monday i r p hp hpn hfr hsel]
  · intro hns
    rw [hg i, hr, Option.map_some']
    rcases hp : r.currentlyAssignedTo with _ | p
    · rw [processRow_skip parse fmt today is_monday i r (Or.inl hp)]
    · by_cases hpn : p = "nan"
      · rw [processRow_skip parse fmt today is_monday i r (Or.inr (hpn ▸ hp))]
      · have hnsel : ¬ selectedForPush parse today is_monday r := by
          intro hsel
          exact hns ⟨⟨p, hp, hpn⟩, hsel⟩
        rw [processRow_not_selected parse fmt today is_monday i r p hp hpn hfr hnsel]

/-- Witness for C1: a weekly task last assigned 3 days ago, run on a
non-reset day, is not pushed and keeps its date. -/
theorem processRows_selection_spec_witness :
    (CleaningScheduler.processRows (fun s => if s = "7" then some 7 else none)
        (fun d => toString d) 10 false
        [{ area := "B", activity := "Scrub", frequency := "Weekly", effortMinutes := 30,
           whoCanDo := some "Alice", lastAssignedDate := some "7",
           currentlyAssignedTo := some "Alice" }]).1.get? 0
      = some { area := "B", activity := "Scrub", frequency := "Weekly",
               effortMinutes := 30, whoCanDo := some "Alice", lastAssignedDate := some "7",
               currentlyAssignedTo := some "Alice" } := by
  refine (processRows_selection_spec (fun s => if s = "7" then some 7 else none)
    (fun d => toString d) 10 false
    [{ area := "B", activity := "Scrub", frequency := "Weekly", effortMinutes := 30,
       whoCanDo := some "Alice", lastAssignedDate := some "7",
       currentlyAssignedTo := some "Alice" }] (by decide) 0
    { area := "B", activity := "Scrub", frequency := "Weekly", effortMinutes := 30,
      whoCanDo := some "Alice", lastAssignedDate := some "7",
      currentlyAssignedTo := some "Alice" } rfl).2.2 ?_
  rintro ⟨-, hdaily | ⟨hm, -⟩⟩
  · exact absurd hdaily (by decide)
  · exact absurd hm (by decide)

/-! ## Theorem about `reset_csv` (claim C9) -/

/-- C9: the maintenance reset re-emits the two leading non-data lines
verbatim, rewrites every row only in its `Last Assigned Date` cell (so the
assigned person — and everything else — is unchanged), and the written cell
is the never-assigned state: `get_date_from_str` reads it back as `none`. -/
theorem reset_csv_spec (h1 h2 : String) (rows : List Row) :
    (reset_csv h1 h2 rows).1 = [h1, h2]
    ∧ (∀ i : Nat, (reset_csv h1 h2 rows).2.get? i
        = (rows.get? i).map (fun r => { r with lastAssignedDate := some "" }))
    ∧ (∀ i : Nat, ((reset_csv h1 h2 rows).2.get? i).map (fun r => r.currentlyAssignedTo)
        = (rows.get? i).map (fun r => r.currentlyAssignedTo))
    ∧ (∀ (parse : String → Option Int) (i : Nat),
        ((reset_csv h1 h2 rows).2.get? i).map
            (fun r => get_date_from_str parse r.lastAssignedDate)
          = (rows.get? i).map (fun _ => (none : Option Int))) := by
  refine ⟨rfl, ?_, ?_, ?_⟩
  · intro i
    simp [reset_csv, List.get?_map]
  · intro i
    simp [reset_csv, List.get?_map]
    cases rows.get? i <;> rfl
  · intro parse i
    simp only [reset_csv, List.get?_map]
    cases rows.get? i with
    | none => rfl
    | some r =>
      simp only [Option.map_some']
      rw [Option.some_inj]
      unfold get_date_from_str
      dsimp only
      rw [if_pos (Or.inl rfl)]

/-! ## Theorems about `assign_logic` (claims C4, C5) -/

/-- Membership in `uniqueAux`. -/
theorem mem_uniqueAux (x : String) :
    ∀ (l seen : List String), x ∈ uniqueAux l seen ↔ (x ∈ l ∧ x ∉ seen) := by
  intro l
  induction l with
  | nil => intro seen; simp [uniqueAux]
  | cons a l ih =>
    intro seen
    unfold uniqueAux
    split_ifs with ha
    · rw [ih seen]
      constructor
      · rintro ⟨hx, hs⟩
        exact ⟨List.mem_cons_of_mem a hx, hs⟩
      · rintro ⟨hx, hs⟩
        rcases List.mem_cons.1 hx with h | h
        · subst h
          exact absurd ha hs
        · exact ⟨h, hs⟩
    · rw [List.mem_cons, ih (a :: seen)]
      constructor
      · rintro (h | ⟨hx, hs⟩)
        · subst h
          exact ⟨List.mem_cons_self x l, ha⟩
        · exact ⟨List.mem_cons_of_mem a hx,
            fun hseen => hs (List.mem_cons_of_mem a hseen)⟩
      · rintro ⟨hx, hs⟩
        rcases List.mem_cons.1 hx with h | h
        · exact Or.inl h
        · by_cases hxa : x = a
          · exact Or.inl hxa
          · exact Or.inr ⟨h, fun hseen => by
              rcases List.mem_cons.1 hseen with h' | h'
              · exact hxa h'
              · exact hs h'⟩

/-- `uniqueFirst` preserves membership. -/
theorem mem_uniqueFirst (x : String) (l : List String) : x ∈ uniqueFirst l ↔ x ∈ l := by
  unfold uniqueFirst
  rw [mem_uniqueAux]
  simp

/-- `insertStrAsc` preserves membership. -/
theorem mem_insertStrAsc (x y : String) :
    ∀ l : List String, x ∈ insertStrAsc y l ↔ x = y ∨ x ∈ l := by
  intro l
  induction l with
  | nil => simp [insertStrAsc]
  | cons z l ih =>
    unfold insertStrAsc
    split_ifs with h
    · simp
    · rw [List.mem_cons, ih, List.mem_cons]
      tauto

/-- `sortStr` preserves membership. -/
theorem mem_sortStr (x : String) : ∀ l : List String, x ∈ sortStr l ↔ x ∈ l := by
  have key : ∀ l acc : List String, x ∈ l.foldr insertStrAsc acc ↔ x ∈ l ∨ x ∈ acc := by
    intro l
    induction l with
    | nil => intro acc; simp
    | cons y l ih =>
      intro acc
      simp only [List.foldr_cons, mem_insertStrAsc, ih acc, List.mem_cons]
      tauto
  intro l
  unfold sortStr
  rw [key]
  simp

/-- `insertByWeightDesc` preserves membership. -/
theorem mem_insertByWeightDesc (w : String → Int) (x a : String) :
    ∀ l : List String, x ∈ insertByWeightDesc w a l ↔ x = a ∨ x ∈ l := by
  intro l
  induction l with
  | nil => simp [insertByWeightDesc]
  | cons b l ih =>
    unfold insertByWeightDesc
    split_ifs with h
    · simp
    · rw [List.mem_cons, ih, List.mem_cons]
      tauto

/-- `sortAreasDesc` preserves membership. -/
theorem mem_sortAreasDesc (w : String → Int) (x : String) :
    ∀ l : List String, x ∈ sortAreasDesc w l ↔ x ∈ l := by
  have key : ∀ l acc : List String,
      x ∈ l.foldl (fun acc a => insertByWeightDesc w a acc) acc ↔ x ∈ l ∨ x ∈ acc := by
    intro l
    induction l with
    | nil => intro acc; simp
    | cons a l ih =>
      intro acc
      simp only [List.foldl_cons, ih, mem_insertByWeightDesc, List.mem_cons]
      tauto
  intro l
  unfold sortAreasDesc
  rw [key]
  simp

/-- `min_by_load` returns an element of its argument. -/
theorem min_by_load_mem (k : String → Option Int) :
    ∀ (l : List String) (m : String), min_by_load k l = some m → m ∈ l := by
  intro l
  induction l with
  | nil => intro m h; exact Option.noConfusion h
  | cons p rest ih =>
    intro m h
    cases rest with
    | nil =>
      unfold min_by_load at h
      cases hk : k p with
      | none => rw [hk] at h; exact Option.noConfusion h
      | some kp =>
        rw [hk] at h
        rw [Option.some_inj] at h
        subst h
        exact List.mem_cons_self _ _
    | cons q rest' =>
      unfold min_by_load at h
      cases hk : k p with
      | none => rw [hk] at h; dsimp only at h; exact Option.noConfusion h
      | some kp =>
        rw [hk] at h
        cases hm : min_by_load k (q :: rest') with
        | none => rw [hm] at h; dsimp only at h; exact Option.noConfusion h
        | some m' =>
          rw [hm] at h
          dsimp only at h
          cases hkm : k m' with
          | none => rw [hkm] at h; dsimp only at h; exact Option.noConfusion h
          | some km =>
            rw [hkm] at h
            dsimp only at h
            split_ifs at h <;> rw [Option.some_inj] at h <;> subst h
            · exact List.mem_cons_self _ _
            · exact List.mem_cons_of_mem _ (ih m' hm)

/-- Every pair the assignment loop emits pairs an area from its worklist
with a member of that area's eligible list. -/
theorem assign_loop_mem (people : List String) (w : String → Int)
    (elig : String → List String) :
    ∀ (areas : List String) (load : String → Int) (m : List (String × String)),
      assign_loop people w elig areas load = some m →
        ∀ a p, (a, p) ∈ m → a ∈ areas ∧ p ∈ elig a := by
  intro areas
  induction areas with
  | nil =>
    intro load m h a p hap
    unfold assign_loop at h
    rw [Option.some_inj] at h
    subst h
    exact absurd hap (List.not_mem_nil _)
  | cons a0 rest ih =>
    intro load m h a p hap
    unfold assign_loop at h
    cases hbest : min_by_load (fun p => if p ∈ people then some (load p) else none)
        (elig a0) with
    | none => rw [hbest] at h; dsimp only at h; exact Option.noConfusion h
    | some best =>
      rw [hbest] at h
      dsimp only at h
      cases htail : assign_loop people w elig rest
          (fun p => if p = best then load p + w a0 else load p) with
      | none => rw [htail] at h; dsimp only at h; exact Option.noConfusion h
      | some m' =>
        rw [htail] at h
        dsimp only at h
        rw [Option.some_inj] at h
        subst h
        rcases List.mem_cons.1 hap with h | h
        · rw [Prod.mk.injEq] at h
          rcases h with ⟨ha, hp⟩
          subst ha
          subst hp
          exact ⟨List.mem_cons_self _ _, min_by_load_mem _ _ _ hbest⟩
        · rcases ih _ m' htail a p h with ⟨h1, h2⟩
          exact ⟨List.mem_cons_of_mem _ h1, h2⟩

/-- A person named by some row's non-`NaN` `Who can do this` cell is in the
person universe. -/
theorem mem_all_people_of (rows : List Row) (r : Row) (s q : String)
    (hr : r ∈ rows) (hs : r.whoCanDo = some s)
    (hq : q ∈ (pySplit s ',').map trimStr) : q ∈ all_people rows := by
  unfold all_people
  rw [mem_sortStr, mem_uniqueFirst, List.mem_flatMap]
  refine ⟨s, ?_, hq⟩
  rw [List.mem_filterMap]
  exact ⟨r, hr, hs⟩

/-- C4: the load balancer never maps an area to a person outside that
area's eligible set — the intersection of every row's people within the
area — and when that intersection is empty the assignee is (only) some
member of the full person universe. -/
theorem assignAreas_respects_eligibility (enum : List String → List String)
    (rows : List Row) (today : Int) (m : List (String × String)) (a p : String)
    (hWho : ∀ r ∈ rows, r.whoCanDo ≠ none)
    (hEnum : ∀ (l : List String) (x : String), x ∈ enum l ↔ x ∈ l)
    (hm : assignAreas enum rows today = some m)
    (hap : (a, p) ∈ m) :
    (∀ r ∈ area_rows rows a, p ∈ row_people r)
    ∨ ((¬ ∃ q : String, ∀ r ∈ area_rows rows a, q ∈ row_people r)
        ∧ p ∈ all_people rows) := by
  unfold assignAreas at hm
  have hmem := assign_loop_mem (all_people rows) (area_weight rows)
    (area_to_eligible enum rows (all_people rows))
    (sortAreasDesc (area_weight rows) (unique_areas rows)) (fun _ => 0) m hm a p hap
  rcases hmem with ⟨ha, hp⟩
  -- the area has at least one row
  have hrow : ∃ r0, r0 ∈ area_rows rows a := by
    rw [mem_sortAreasDesc] at ha
    unfold unique_areas at ha
    rw [mem_uniqueFirst, List.mem_map] at ha
    rcases ha with ⟨r0, hr0, hr0a⟩
    refine ⟨r0, ?_⟩
    unfold area_rows
    rw [List.mem_filter]
    exact ⟨hr0, by simp [hr0a]⟩
  rcases hrow with ⟨r0, hr0⟩
  have hr0rows : r0 ∈ rows := List.mem_of_mem_filter hr0
  unfold area_to_eligible at hp
  by_cases he : area_eligible rows (all_people rows) a = []
  · rw [if_pos he] at hp
    refine Or.inr ⟨?_, hp⟩
    rintro ⟨q, hq⟩
    -- q would be a member of the eligible filter, contradicting emptiness
    have hqs : ∃ s, r0.whoCanDo = some s := by
      cases hws : r0.whoCanDo with
      | none => exact absurd hws (hWho r0 hr0rows)
      | some s => exact ⟨s, rfl⟩
    rcases hqs with ⟨s, hws⟩
    have hqp : q ∈ all_people rows := by
      refine mem_all_people_of rows r0 s q hr0rows hws ?_
      have := hq r0 hr0
      unfold row_people whoStr at this
      rw [hws] at this
      exact this
    have : q ∈ area_eligible rows (all_people rows) a := by
      unfold area_eligible
      rw [List.mem_filter]
      exact ⟨hqp, decide_eq_true hq⟩
    rw [he] at this
    exact absurd this (List.not_mem_nil _)
  · rw [if_neg he] at hp
    rw [hEnum] at hp
    unfold area_eligible at hp
    rw [List.mem_filter] at hp
    exact Or.inl (of_decide_eq_true hp.2)

/-- Witness for C4: on a two-area catalog the computed assignment pair
`("Kitchen", "Alice")` satisfies the eligibility disjunction. -/
theorem assignAreas_respects_eligibility_witness :
    (∀ r ∈ area_rows
        [{ area := "Kitchen", activity := "Wipe counters", frequency := "Daily",
           effortMinutes := 10, whoCanDo := some "Alice, Bob", lastAssignedDate := none,
           currentlyAssignedTo := none },
         { area := "Bathroom", activity := "Scrub tub", frequency := "Weekly",
           effortMinutes := 30, whoCanDo := some "Alice", lastAssignedDate := none,
           currentlyAssignedTo := none }] "Kitchen", "Alice" ∈ row_people r)
    ∨ ((¬ ∃ q : String, ∀ r ∈ area_rows
        [{ area := "Kitchen", activity := "Wipe counters", frequency := "Daily",
           effortMinutes := 10, whoCanDo := some "Alice, Bob", lastAssignedDate := none,
           currentlyAssignedTo := none },
         { area := "Bathroom", activity := "Scrub tub", frequency := "Weekly",
           effortMinutes := 30, whoCanDo := some "Alice", lastAssignedDate := none,
           currentlyAssignedTo := none }] "Kitchen", q ∈ row_people r)
        ∧ "Alice" ∈ all_people
        [{ area := "Kitchen", activity := "Wipe counters", frequency := "Daily",
           effortMinutes := 10, whoCanDo := some "Alice, Bob", lastAssignedDate := none,
           currentlyAssignedTo := none },
         { area := "Bathroom", activity := "Scrub tub", frequency := "Weekly",
           effortMinutes := 30, whoCanDo := some "Alice", lastAssignedDate := none,
           currentlyAssignedTo := none }]) := by
  exact assignAreas_respects_eligibility id
    [{ area := "Kitchen", activity := "Wipe counters", frequency := "Daily",
       effortMinutes := 10, whoCanDo := some "Alice, Bob", lastAssignedDate := none,
       currentlyAssignedTo := none },
     { area := "Bathroom", activity := "Scrub tub", frequency := "Weekly",
       effortMinutes := 30, whoCanDo := some "Alice", lastAssignedDate := none,
       currentlyAssignedTo := none }] 0
    [("Kitchen", "Alice"), ("Bathroom", "Alice")] "Kitchen" "Alice"
    (by decide) (fun l x => Iff.rfl) (by decide) (by decide)

/-- C5 fails on the code: the tie-break among equally loaded eligible people
follows the iteration order of `list(eligible)` — a Python `set`, whose
order is hash-randomized per interpreter process — not a fixed
deterministic (e.g. alphabetical) ordering.  Two legitimate set-enumeration
orders (both membership-preserving, as the first conjunct certifies for the
second one; the first is the identity) yield different area→person
mappings on the same `(tasks, today)`. -/
theorem assignAreas_set_order_dependent :
    (∀ (l : List String) (x : String), x ∈ (fun l : List String => l.reverse) l ↔ x ∈ l)
    ∧ assignAreas id
        [{ area := "A1", activity := "Clean", frequency := "weekly", effortMinutes := 10,
           whoCanDo := some "Alice, Bob", lastAssignedDate := none,
           currentlyAssignedTo := none }] 0 = some [("A1", "Alice")]
    ∧ assignAreas (fun l => l.reverse)
        [{ area := "A1", activity := "Clean", frequency := "weekly", effortMinutes := 10,
           whoCanDo := some "Alice, Bob", lastAssignedDate := none,
           currentlyAssignedTo := none }] 0 = some [("A1", "Bob")] := by
  exact ⟨fun l x => List.mem_reverse, by decide, by decide⟩

/-! ## Theorems about the reconciliation phase (claim C6) -/

/-- Every operation of the clearing phase is a deletion. -/
theorem clear_items_shape (title : String) (items : List RemoteItem) :
    ∀ op ∈ clear_items title items, ∃ t i, op = KeepOp.deleteItem t i := by
  intro op hop
  unfold clear_items at hop
  rcases List.mem_map.1 hop with ⟨it, _, heq⟩
  exact ⟨title, it.id, heq.symm⟩

/-- Every operation of the add phase is an item addition. -/
theorem addPhaseOps_shape (title : String) (tasks : List PushItem) :
    ∀ op ∈ addPhaseOps title tasks, ∃ t x pr, op = KeepOp.addItem t x pr := by
  intro op hop
  unfold addPhaseOps at hop
  rcases List.mem_flatten.1 hop with ⟨block, hblock, hopb⟩
  rcases List.mem_map.1 hblock with ⟨a, _, hba⟩
  subst hba
  rcases List.mem_cons.1 hopb with h | h
  · exact ⟨title, a, none, h⟩
  · rcases List.mem_map.1 h with ⟨t, _, heq⟩
    exact ⟨title, t.task, some a, heq.symm⟩

/-- Applying only non-addition operations keeps the fresh-identity counter,
so the run of operations splits. -/
theorem applyOps_append_of_no_add (l2 : List KeepOp) :
    ∀ (l1 : List KeepOp), (∀ op ∈ l1, isAddOp op = false) →
      ∀ (st : List RemoteItem) (fresh : Nat),
        applyOps (l1 ++ l2) st fresh = applyOps l2 (applyOps l1 st fresh) fresh := by
  intro l1
  induction l1 with
  | nil => intro _ st fresh; rfl
  | cons op rest ih =>
    intro hno st fresh
    cases op with
    | createList t =>
      exact ih (fun o ho => hno o (List.mem_cons_of_mem _ ho)) st fresh
    | deleteItem t i =>
      exact ih (fun o ho => hno o (List.mem_cons_of_mem _ ho))
        (st.filter (fun x => x.id != i)) fresh
    | addItem t x pr =>
      exact absurd (hno _ (List.mem_cons_self _ _)) (by simp [isAddOp])

/-- After the clearing phase no identity of the cleared items survives. -/
theorem applyOps_clear_mem (title : String) :
    ∀ (its : List RemoteItem) (st : List RemoteItem) (fresh : Nat) (y : RemoteItem),
      y ∈ applyOps (clear_items title its) st fresh →
        y ∈ st ∧ ∀ it ∈ its, y.id ≠ it.id := by
  intro its
  induction its with
  | nil =>
    intro st fresh y hy
    exact ⟨hy, by simp⟩
  | cons it its ih =>
    intro st fresh y hy
    have hy' : y ∈ applyOps (clear_items title its)
        (st.filter (fun x => x.id != it.id)) fresh := hy
    rcases ih _ fresh y hy' with ⟨hst, hids⟩
    rw [List.mem_filter] at hst
    refine ⟨hst.1, ?_⟩
    intro it' hit'
    rcases List.mem_cons.1 hit' with h | h
    · subst h
      exact bne_iff_ne.1 hst.2
    · exact hids it' h

/-- Applying only non-deletion operations can only keep existing items or
add items with a fresh (≥ counter) identity. -/
theorem applyOps_no_delete_mem :
    ∀ (ops : List KeepOp), (∀ op ∈ ops, isDeleteOp op = false) →
      ∀ (st : List RemoteItem) (fresh : Nat) (y : RemoteItem),
        y ∈ applyOps ops st fresh → y ∈ st ∨ fresh ≤ y.id := by
  intro ops
  induction ops with
  | nil =>
    intro _ st fresh y hy
    exact Or.inl hy
  | cons op rest ih =>
    intro hno st fresh y hy
    cases op with
    | createList t =>
      exact ih (fun o ho => hno o (List.mem_cons_of_mem _ ho)) st fresh y hy
    | deleteItem t i =>
      exact absurd (hno _ (List.mem_cons_self _ _)) (by simp [isDeleteOp])
    | addItem t x pr =>
      have hy' : y ∈ applyOps rest (st ++ [{ id := fresh, text := x, checked := false }])
          (fresh + 1) := hy
      rcases ih (fun o ho => hno o (List.mem_cons_of_mem _ ho)) _ _ y hy' with h | h
      · rcases List.mem_append.1 h with h | h
        · exact Or.inl h
        · rcases List.mem_singleton.1 h with rfl
          exact Or.inr (le_refl _)
      · exact Or.inr (by omega)

/-- C6: reconciling one person's remote list first deletes every item that
was already in the list — checked ones included — and only then adds
today's items: every delete is listed before every add, and in the applied
final state no item identity of the prior content survives. -/
theorem reconcilePerson_clears_before_adding (title : String) (items : List RemoteItem)
    (tasks : List PushItem) :
    (∀ it ∈ items, KeepOp.deleteItem title it.id ∈ reconcilePerson title items tasks)
    ∧ (∀ (i j : Nat) (opd opa : KeepOp),
        (reconcilePerson title items tasks).get? i = some opd →
        (reconcilePerson title items tasks).get? j = some opa →
        isDeleteOp opd = true → isAddOp opa = true → i < j)
    ∧ (∀ fresh : Nat, (∀ it ∈ items, it.id < fresh) →
        ∀ y ∈ applyOps (reconcilePerson title items tasks) items fresh,
          ∀ it ∈ items, y.id ≠ it.id) := by
  refine ⟨?_, ?_, ?_⟩
  · intro it hit
    unfold reconcilePerson
    refine List.mem_append_left _ ?_
    unfold clear_items
    exact List.mem_map.2 ⟨it, hit, rfl⟩
  · intro i j opd opa hi hj hdel hadd
    have hilt : i < (clear_items title items).length := by
      by_contra hge
      rw [not_lt] at hge
      rw [reconcilePerson, List.get?_append_right hge] at hi
      rcases addPhaseOps_shape title tasks opd (List.get?_mem hi) with ⟨t, x, pr, rfl⟩
      simp [isDeleteOp] at hdel
    have hjge : (clear_items title items).length ≤ j := by
      by_contra hlt
      rw [not_le] at hlt
      rw [reconcilePerson, List.get?_append hlt] at hj
      rcases clear_items_shape title items opa (List.get?_mem hj) with ⟨t, i', rfl⟩
      simp [isAddOp] at hadd
    omega
  · intro fresh hfresh y hy it hit
    unfold reconcilePerson at hy
    rw [applyOps_append_of_no_add _ _ (fun op hop => by
      rcases clear_items_shape title items op hop with ⟨t, i, rfl⟩
      simp [isAddOp])] at hy
    rcases applyOps_no_delete_mem _ (fun op hop => by
        rcases addPhaseOps_shape title tasks op hop with ⟨t, x, pr, rfl⟩
        simp [isDeleteOp]) _ _ y hy with h | h
    · exact (applyOps_clear_mem title items items fresh y h).2 it hit
    · have := hfresh it hit
      omega

/-- Witness for C6 at a concrete previously checked item and one push item:
the old item's delete is issued, and it is gone from the final state. -/
theorem reconcilePerson_clears_before_adding_witness :
    KeepOp.deleteItem "T" 3 ∈
      reconcilePerson "T" [{ id := 3, text := "old done task", checked := true }]
        [{ person := "Alice", area := "Kitchen", task := "Wipe counters",
           originalIndex := 0 }]
    ∧ (∀ y ∈ applyOps
        (reconcilePerson "T" [{ id := 3, text := "old done task", checked := true }]
          [{ person := "Alice", area := "Kitchen", task := "Wipe counters",
             originalIndex := 0 }])
        [{ id := 3, text := "old done task", checked := true }] 4,
        ∀ it ∈ [({ id := 3, text := "old done task", checked := true } : RemoteItem)],
          y.id ≠ it.id) := by
  constructor
  · exact (reconcilePerson_clears_before_adding "T"
      [{ id := 3, text := "old done task", checked := true }]
      [{ person := "Alice", area := "Kitchen", task := "Wipe counters",
         originalIndex := 0 }]).1
      { id := 3, text := "old done task", checked := true } (by decide)
  · exact (reconcilePerson_clears_before_adding "T"
      [{ id := 3, text := "old done task", checked := true }]
      [{ person := "Alice", area := "Kitchen", task := "Wipe counters",
         originalIndex := 0 }]).2.2 4 (by decide)

/-! ## Theorems about the whole daily run (claims C7, C8) -/

/-- C7: the mutated catalog is saved before authentication is attempted —
when authentication fails the run still saved exactly the mutated catalog
(assignments applied and dates advanced), performed no remote list
operation, and saved the very same catalog an authenticated run would
save. -/
theorem main_run_saves_before_auth (inp : MainInput) (h1 h2 : String)
    (rows rows1 : List Row)
    (hcsv : inp.csv = some (h1, h2, rows))
    (hassign : (if inp.is_monday then assign_logic inp.enum rows inp.today else some rows)
      = some rows1)
    (hauth : inp.authOk = false) :
    (main_run inp).savedCsv
      = some (h1, h2, (processRows inp.parse inp.fmt inp.today inp.is_monday rows1).1)
    ∧ (main_run inp).remoteOps = []
    ∧ (main_run inp).savedCsv = (main_run { inp with authOk := true }).savedCsv := by
  have hmain : main_run inp =
      { exitCode := 0,
        savedCsv := some (h1, h2, (processRows inp.parse inp.fmt inp.today inp.is_monday rows1).1),
        remoteOps := [] } := by
    unfold main_run
    rw [hcsv]
    dsimp only
    rw [hassign]
    dsimp only
    rw [hauth]
    rfl
  have hmain' : main_run { inp with authOk := true } =
      { exitCode := 0,
        savedCsv := some (h1, h2, (processRows inp.parse inp.fmt inp.today inp.is_monday rows1).1),
        remoteOps := syncAll inp.noteTitle inp.remoteItems
          (processRows inp.parse inp.fmt inp.today inp.is_monday rows1).2 } := by
    unfold main_run
    dsimp only
    rw [hcsv]
    dsimp only
    rw [hassign]
    rfl
  rw [hmain, hmain']
  exact ⟨rfl, rfl, rfl⟩

/-- Witness for C7: a concrete failed-auth run keeps the saved (dated)
catalog and issues no remote operation. -/
theorem main_run_saves_before_auth_witness :
    (main_run authFailInput).savedCsv
      = some ("h1", "h2",
        [{ rowDailyAlice with lastAssignedDate := some (toString (5 : Int)) }])
    ∧ (main_run authFailInput).remoteOps = [] := by
  have h := main_run_saves_before_auth authFailInput "h1" "h2"
    [rowDailyAlice] [rowDailyAlice] rfl rfl rfl
  exact ⟨h.1.trans (by rfl), h.2.1⟩

/-- C8 fails on the code: both failure paths of `main` end in a plain
`return`, so the process exits 0 on a catalog-read failure (first
conjunct) and on an authentication failure (second conjunct) just as it
does on success, while the claim demands a non-zero exit code there. -/
theorem main_run_failure_exit_zero :
    (main_run csvFailInput).exitCode = 0
    ∧ (main_run authFailInput).exitCode = 0 := by
  exact ⟨rfl, rfl⟩

/-- C8 amended: every invocation that does not die of an uncaught exception
exits with code 0 — on success, but also on catalog-read failure (which
additionally saves nothing and touches no remote list) and on
authentication failure; failures are reported through printed messages
only. -/
theorem main_run_exit_codes (inp : MainInput) :
    (inp.csv = none →
        main_run inp = { exitCode := 0, savedCsv := none, remoteOps := [] })
    ∧ (∀ (h1 h2 : String) (rows rows1 : List Row),
        inp.csv = some (h1, h2, rows) →
        (if inp.is_monday then assign_logic inp.enum rows inp.today else some rows)
          = some rows1 →
        (main_run inp).exitCode = 0) := by
  constructor
  · intro h
    unfold main_run
    rw [h]
  · intro h1 h2 rows rows1 hcsv hassign
    unfold main_run
    rw [hcsv]
    dsimp only
    rw [hassign]
    dsimp only
    by_cases hauth : inp.authOk = false
    · rw [if_pos hauth]
    · rw [if_neg hauth]

/-- Witness for C8's amended statement: exit code 0 on a failing catalog
read and on a run that proceeds past assignment. -/
theorem main_run_exit_codes_witness :
    main_run csvFailInput = { exitCode := 0, savedCsv := none, remoteOps := [] }
    ∧ (main_run authOkInput).exitCode = 0 := by
  constructor
  · exact (main_run_exit_codes csvFailInput).1 rfl
  · exact (main_run_exit_codes authOkInput).2 "h1" "h2"
      [rowDailyAlice] [rowDailyAlice] rfl rfl

end CleaningScheduler
